import Mathlib

/-!
# multithreaded-ray-tracing: `src/main.cpp`

A shallow embedding of `hit_sphere`, `ray_color` and the pixel scheduler of `main`.

Conventions of the embedding.

* `double` is an ordered field `K` (the theorems hold in particular for `ℝ` and `ℚ`); a decimal
  literal is its decimal value.  In `ray_color` and the pixel scheduler the arithmetic is exact.
  In `hit_sphere`, where the sign of a computed difference decides the result, every operation is
  followed by a rounding `fl`: the identity gives exact arithmetic, `binary64` gives IEEE 754
  doubles.
* `S` is the ambient mutable state a call may read and change (the global random generator behind
  `random_double`, any counter a `hittable` or material keeps).  Calls that can touch it take the
  state and return the new one.
* `M` is the type of material handles (`shared_ptr<material>`); the virtual call
  `mat_ptr->scatter(...)` is the `scatter` field of `material`.
* `int` is `Int`; the conversion to `unsigned int` is `% 2 ^ 32`.
-/

set_option autoImplicit false

/-! ## Data model -/

/-- Modelled from the spec: `vec3.h` is not part of the sources.  "Vector3: three floating-point
components; used interchangeably as a point, a direction, or an RGB color."  The fields are the
array cells `e[0]`, `e[1]`, `e[2]`. -/
structure vec3 (K : Type) where
  e0 : K
  e1 : K
  e2 : K
deriving DecidableEq

/-- The type alias `point3` of `vec3`. -/
abbrev point3 (K : Type) := vec3 K

/-- The type alias `color` of `vec3`. -/
abbrev color (K : Type) := vec3 K

/-- Modelled from the spec: `ray.h` is not part of the sources.  "Ray: an origin Vector3 and a
direction Vector3." -/
structure ray (K : Type) where
  orig : point3 K
  dir : vec3 K
deriving DecidableEq

/-- Modelled from the spec: `hittable.h` is not part of the sources.  "HitRecord: point of
intersection, surface normal, parametric distance `t`, a reference to the surface's material, and a
flag for whether the ray hit the outward or inward face." -/
structure hit_record (K M : Type) where
  p : point3 K
  normal : vec3 K
  mat_ptr : M
  t : K
  front_face : Bool

/-- Modelled from the spec: the interface `hittable` of `hittable.h`, whose implementations are
not part of the sources.  `hit(r, t_min, t_max, rec)` returns `some rec` for `true` with the
record filled in and `none` for `false`.  `t_max` may be `infinity`, the top element. -/
structure hittable (K M S : Type) where
  hit : ray K → K → WithTop K → S → Option (hit_record K M) × S

/-- Modelled from the spec: the interface `material` of `material.h`, whose implementations are
not part of the sources.  `scatter(r_in, rec, attenuation, scattered)` returns
`some (attenuation, scattered)` for `true` and `none` for `false`. -/
structure material (K M S : Type) where
  scatter : M → ray K → hit_record K M → S → Option (color K × ray K) × S

/-- The library functions `main.cpp` calls, taken as parameters: `sqrt` of `<cmath>` and
`random_double` of `rtutils.h`. -/
structure rtutils (K S : Type) where
  sqrt : K → K
  random_double : S → K × S

/-- The method of `camera` that `main.cpp` calls, taken as a parameter (`camera.h` is not part of
the sources): `get_ray(u, v)`, which draws random numbers for the lens offset. -/
structure camera (K S : Type) where
  get_ray : K → K → S → ray K × S

/-- The struct `RayResult` of `main.cpp`. -/
structure RayResult (K : Type) where
  index : Nat
  color : vec3 K

namespace vec3

variable {K : Type}

/-- Modelled from the spec: the accessor `x()` of `vec3.h`, the cell `e[0]`. -/
def x (v : vec3 K) : K := v.e0

/-- Modelled from the spec: the accessor `y()` of `vec3.h`, the cell `e[1]`. -/
def y (v : vec3 K) : K := v.e1

/-- Modelled from the spec: the accessor `z()` of `vec3.h`, the cell `e[2]`. -/
def z (v : vec3 K) : K := v.e2

/-- Modelled from the spec: the vector `vec3(0,0,0)`. -/
def zero [Zero K] : vec3 K := ⟨0, 0, 0⟩

/-- Modelled from the spec: `operator+` of `vec3.h`, component-wise ("3D vector arithmetic"). -/
def add [Add K] (u v : vec3 K) : vec3 K := ⟨u.e0 + v.e0, u.e1 + v.e1, u.e2 + v.e2⟩

/-- Modelled from the spec: `operator*` of two vectors in `vec3.h`, the "element-wise color
multiply". -/
def mul [Mul K] (u v : vec3 K) : vec3 K := ⟨u.e0 * v.e0, u.e1 * v.e1, u.e2 * v.e2⟩

/-- Modelled from the spec: `operator*` of a scalar and a vector in `vec3.h`. -/
def smul [Mul K] (t : K) (v : vec3 K) : vec3 K := ⟨t * v.e0, t * v.e1, t * v.e2⟩

/-- Modelled from the spec: `operator/` and `operator/=` of `vec3.h`, the product with `1/t`. -/
def div [Mul K] [One K] [Div K] (v : vec3 K) (t : K) : vec3 K := smul (1 / t) v

/-- Modelled from the spec: the method `length_squared()` of `vec3.h`. -/
def length_squared [Add K] [Mul K] (v : vec3 K) : K := v.e0 * v.e0 + v.e1 * v.e1 + v.e2 * v.e2

/-- Modelled from the spec: the method `length()` of `vec3.h`, the square root of
`length_squared()`. -/
def length [Add K] [Mul K] (sqrt : K → K) (v : vec3 K) : K := sqrt v.length_squared

end vec3

/-- Modelled from the spec: the function `unit_vector(v)` of `vec3.h`, that is `v / v.length()`
("unit direction" of a ray). -/
def unit_vector {K : Type} [Add K] [Mul K] [One K] [Div K] (sqrt : K → K) (v : vec3 K) : vec3 K :=
  v.div (v.length sqrt)

/-- Modelled from the spec: the method `ray::at(t)` of `ray.h`: "a parameter `t` maps to the point
`origin + t*direction`". -/
def ray.at {K : Type} [Add K] [Mul K] (r : ray K) (t : K) : point3 K :=
  r.orig.add (vec3.smul t r.dir)

/-! ## `hit_sphere` and `ray_color` -/

section Integrator

variable {K M S : Type} [LinearOrderedField K]

/-- The function `ray_color` of `main.cpp`. -/
def ray_color (lib : rtutils K S) (mats : material K M S) (world : hittable K M S)
    (r : ray K) (depth : Int) (s : S) : color K × S :=
  if _h : depth ≤ 0 then
    (⟨0, 0, 0⟩, s)
  else
    match world.hit r (1 / 1000) ⊤ s with
    | (some rec, s1) =>
      match mats.scatter rec.mat_ptr r rec s1 with
      | (some (attenuation, scattered), s2) =>
        let res := ray_color lib mats world scattered (depth - 1) s2
        (attenuation.mul res.1, res.2)
      | (none, s2) => (⟨0, 0, 0⟩, s2)
    | (none, s1) =>
      let unit_direction := unit_vector lib.sqrt r.dir
      let t := (1 / 2) * (unit_direction.y + 1)
      ((vec3.smul (1 - t) ⟨1, 1, 1⟩).add (vec3.smul t ⟨1 / 2, 7 / 10, 1⟩), s1)
termination_by depth.toNat
decreasing_by omega

end Integrator

/-! ## The pixel scheduler of `main` -/

section Scheduler

variable {K M S : Type} [LinearOrderedField K]

/-- The conversion `static_cast<int>(x)` of a `double`: truncation toward zero. -/
def static_cast_int [FloorRing K] (x : K) : Int :=
  if 0 ≤ x then ⌊x⌋ else ⌈x⌉

/-- The constant `aspect_ratio`, `16.0 / 9.0` in exact arithmetic. -/
def aspect_ratio : ℚ := 16 / 9

/-- The constant `image_width`. -/
def image_width : Int := 400

/-- The constant `image_height`. -/
def image_height : Int := static_cast_int ((image_width : ℚ) / aspect_ratio)

/-- The constant `samples_per_pixel`. -/
def samples_per_pixel : Int := 100

/-- The constant `max_depth`. -/
def max_depth : Int := 50

/-- The constant `pixelCount`. -/
def pixelCount : Int := image_width * image_height

/-- Every channel of a colour lies in `[0, b]`. -/
def vec3.within (c : vec3 K) (b : K) : Prop :=
  (0 ≤ c.e0 ∧ c.e0 ≤ b) ∧ (0 ≤ c.e1 ∧ c.e1 ≤ b) ∧ (0 ≤ c.e2 ∧ c.e2 ≤ b)

instance (c : vec3 K) (b : K) : Decidable (c.within b) := by
  unfold vec3.within
  infer_instance

/-- Every channel of a colour lies in `[0, 1]`. -/
def vec3.in_unit (c : vec3 K) : Prop :=
  c.within 1

instance (c : vec3 K) : Decidable c.in_unit := by
  unfold vec3.in_unit
  infer_instance

/-- The coordinate `u = (i + random_double()) / (image_width-1)` of the pixel task, for the draw
`rnd`; `v` is the same expression in `j` and `image_height`. -/
def pixel_coord (i : Int) (rnd : K) (extent : Int) : K :=
  ((i : K) + rnd) / ((extent - 1 : Int) : K)

/-- The sampling loop `for (int s = 0; s < samples_per_pixel; ++s)` of the pixel task, with `n`
iterations left and `acc` the running value of the local `color`. -/
def pixel_samples (lib : rtutils K S) (cam : camera K S) (mats : material K M S)
    (world : hittable K M S) (w h i j : Int) : Nat → vec3 K → S → vec3 K × S
  | 0, acc, s => (acc, s)
  | n + 1, acc, s =>
    let d1 := lib.random_double s
    let u := pixel_coord i d1.1 w
    let d2 := lib.random_double d1.2
    let v := pixel_coord j d2.1 h
    let r := cam.get_ray u v d2.2
    let c := ray_color lib mats world r.1 max_depth r.2
    pixel_samples lib cam mats world w h i j n (acc.add c.1) c.2

/-- The value `const unsigned int index = j * image_width + i` of the pixel task: the `int`
expression converted to `unsigned int`. -/
def pixel_index (w i j : Int) : Nat :=
  ((j * w + i) % 2 ^ 32).toNat

/-- The body of the task that `main` launches for the pixel in column `i` and row `j`. -/
def pixel_task (lib : rtutils K S) (cam : camera K S) (mats : material K M S)
    (world : hittable K M S) (spp w h i j : Int) (s : S) : RayResult K × S :=
  let index := pixel_index w i j
  let sum := pixel_samples lib cam mats world w h i j spp.toNat ⟨0, 0, 0⟩ s
  let color := sum.1.div (spp : K)
  ({ index := index,
     color := ⟨lib.sqrt color.e0, lib.sqrt color.e1, lib.sqrt color.e2⟩ }, sum.2)

/-- The dispatch loops of `main`: the vector `m_futures` in launch order, `j` the outer and `i` the
inner loop; `task i j` is the value the future of pixel `(i, j)` yields. -/
def dispatch (task : Int → Int → RayResult K) (w h : Int) : List (RayResult K) :=
  ((List.range h.toNat).map fun (j : Nat) =>
    (List.range w.toNat).map fun (i : Nat) => task (i : Int) (j : Int)).flatten

/-- The merge loop of `main`: `image[result.index] = result.color` for every result. -/
def merge (image : List (vec3 K)) (results : List (RayResult K)) : List (vec3 K) :=
  results.foldl (fun img result => img.set result.index result.color) image

/-- The buffer after `new vec3[n]` and `memset`. -/
def new_image (n : Int) : List (vec3 K) :=
  List.replicate n.toNat ⟨0, 0, 0⟩

/-- The three integers of a pixel line, in the order the serialization loop writes them. -/
def pixel_channels [FloorRing K] (c : vec3 K) : List Int :=
  [static_cast_int (25599 / 100 * c.e2),
   static_cast_int (25599 / 100 * c.e1),
   static_cast_int (25599 / 100 * c.e0)]

/-- The text of a pixel line: the integers separated by a blank, then a newline. -/
def pixel_line [FloorRing K] (c : vec3 K) : String :=
  " ".intercalate ((pixel_channels c).map toString) ++ "\n"

/-- The serialization loop `for (unsigned int i = 0; i < pixelCount; ++i)`: the lines written, in
order.  Cell `i` is read with a default that is never used while `count` is the buffer's size. -/
def serialize [FloorRing K] (image : List (vec3 K)) (count : Int) : List String :=
  (List.range (count % 2 ^ 32).toNat).map fun i => pixel_line (image.getD i ⟨0, 0, 0⟩)

/-- The header `"P3\n" << image_width << ' ' << image_height << "\n255\n"`. -/
def ppm_header (w h : Int) : String :=
  "P3\n" ++ toString w ++ " " ++ toString h ++ "\n255\n"

/-- The results the futures yield, in launch order, for an image of `w` by `h` pixels.  The tasks
run concurrently; `seed i j` is the ambient state the task of pixel `(i, j)` starts from. -/
def task_results (lib : rtutils K S) (cam : camera K S) (mats : material K M S)
    (world : hittable K M S) (seed : Int → Int → S) (spp w h : Int) : List (RayResult K) :=
  dispatch (fun i j => (pixel_task lib cam mats world spp w h i j (seed i j)).1) w h

/-- The results the futures of `main` yield, in launch order. -/
def main_results (lib : rtutils K S) (cam : camera K S) (mats : material K M S)
    (world : hittable K M S) (seed : Int → Int → S) : List (RayResult K) :=
  task_results lib cam mats world seed samples_per_pixel image_width image_height

/-- The buffer `image` of `main` after the merge loop. -/
def main_image (lib : rtutils K S) (cam : camera K S) (mats : material K M S)
    (world : hittable K M S) (seed : Int → Int → S) : List (vec3 K) :=
  merge (new_image (image_width * image_height)) (main_results lib cam mats world seed)

/-- The pixel lines `main` writes after the header. -/
def main_lines [FloorRing K] (lib : rtutils K S) (cam : camera K S) (mats : material K M S)
    (world : hittable K M S) (seed : Int → Int → S) : List String :=
  serialize (main_image lib cam mats world seed) pixelCount

/-- The text `main` writes to `output_image.ppm` once the file is open. -/
def main_output [FloorRing K] (lib : rtutils K S) (cam : camera K S) (mats : material K M S)
    (world : hittable K M S) (seed : Int → Int → S) : String :=
  ppm_header image_width image_height ++ String.join (main_lines lib cam mats world seed)

end Scheduler

/-! ## A small scene

A concrete instance over `ℚ` on which the definitions above are evaluated.  Its ambient state is a
counter that every call to `hit`, `scatter`, `random_double` and `get_ray` increments. -/

section Scene

variable {K : Type} [LinearOrderedField K]

/-- A square root on `ℚ`: exact on squares of rationals. -/
def scene_sqrt (q : ℚ) : ℚ := Rat.sqrt q

/-- The library of the small scene, for a given square root: `random_double` always draws
`1/2`. -/
def scene_lib (sqrt : K → K) : rtutils K Nat :=
  { sqrt := sqrt, random_double := fun s => (1 / 2, s + 1) }

/-- The geometry of the small scene: a floor that every ray pointing downward hits at `t = 1`.  Its
material is `true` (a diffuse grey) where the ray also points to the right or straight down, and
`false` (an absorber) where it points to the left. -/
def scene_world : hittable K Bool Nat :=
  { hit := fun r _ _ s =>
      if r.dir.e1 < 0 then
        (some { p := r.at 1, normal := ⟨0, 1, 0⟩, mat_ptr := decide (0 ≤ r.dir.e0), t := 1,
                front_face := true }, s + 1)
      else
        (none, s + 1) }

/-- A scene without geometry: every ray misses. -/
def scene_empty : hittable K Bool Nat :=
  { hit := fun _ _ _ s => (none, s + 1) }

/-- The materials of the small scene: `true` scatters straight up with attenuation one half,
`false` absorbs. -/
def scene_mats : material K Bool Nat :=
  { scatter := fun m _ rec s =>
      if m then (some (⟨1 / 2, 1 / 2, 1 / 2⟩, ⟨rec.p, ⟨0, 1, 0⟩⟩), s + 1) else (none, s + 1) }

/-- The camera of the small scene: every ray starts at the origin; it points straight up for
`u ≤ 1/2` and straight down otherwise. -/
def scene_cam : camera K Nat :=
  { get_ray := fun u _ s => (⟨⟨0, 0, 0⟩, ⟨0, if u ≤ 1 / 2 then 1 else -1, 0⟩⟩, s + 1) }

end Scene

/-! ## Theorems -/

section IntegratorTheorems

variable {K M S : Type} [LinearOrderedField K]

theorem scene_sqrt_one : scene_sqrt 1 = 1 := by
  have h := Rat.sqrt_eq 1
  simp [scene_sqrt]

/-- The base case of `ray_color`: an exhausted depth budget. -/
theorem ray_color_base (lib : rtutils K S) (mats : material K M S) (world : hittable K M S)
    (r : ray K) (depth : Int) (s : S) (hd : depth ≤ 0) :
    ray_color lib mats world r depth s = (⟨0, 0, 0⟩, s) := by
  rw [ray_color]
  simp only [hd, ↓reduceDIte]

/-- One step of `ray_color` for a positive depth budget. -/
theorem ray_color_step (lib : rtutils K S) (mats : material K M S) (world : hittable K M S)
    (r : ray K) (depth : Int) (s : S) (hd : 1 ≤ depth) :
    ray_color lib mats world r depth s
      = match world.hit r (1 / 1000) ⊤ s with
        | (some rec, s1) =>
          match mats.scatter rec.mat_ptr r rec s1 with
          | (some (attenuation, scattered), s2) =>
            (attenuation.mul (ray_color lib mats world scattered (depth - 1) s2).1,
             (ray_color lib mats world scattered (depth - 1) s2).2)
          | (none, s2) => (⟨0, 0, 0⟩, s2)
        | (none, s1) =>
          ((vec3.smul (1 - 1 / 2 * ((unit_vector lib.sqrt r.dir).y + 1)) ⟨1, 1, 1⟩).add
            (vec3.smul (1 / 2 * ((unit_vector lib.sqrt r.dir).y + 1)) ⟨1 / 2, 7 / 10, 1⟩), s1) := by
  have hd0 : ¬ depth ≤ 0 := by omega
  rw [ray_color]
  simp only [hd0, ↓reduceDIte]

/-- On the small scene a ray pointing straight up misses and gets the zenith colour, after one
call of `hit`. -/
theorem scene_up (sqrt : K → K) (h1 : sqrt 1 = 1) (o : point3 K) (depth : Int) (s : Nat)
    (hd : 1 ≤ depth) :
    ray_color (scene_lib sqrt) scene_mats scene_world ⟨o, ⟨0, 1, 0⟩⟩ depth s
      = (⟨1 / 2, 7 / 10, 1⟩, s + 1) := by
  rw [ray_color_step _ _ _ _ _ _ hd]
  simp only [scene_world, scene_lib, unit_vector, vec3.div, vec3.length, vec3.length_squared,
    vec3.smul, vec3.add, vec3.y]
  norm_num [h1]

/-- C1: for every ray, every scene and materials (whatever `hit` and `scatter` do, to their results
and to the ambient state) and every depth budget `depth ≤ 0`, `ray_color` returns black and leaves
the ambient state as it found it: neither `hit` nor `scatter` has been called. -/
theorem ray_color_depth_nonpos (lib : rtutils K S) (mats : material K M S)
    (world : hittable K M S) (r : ray K) (depth : Int) (s : S) (hd : depth ≤ 0) :
    ray_color lib mats world r depth s = (⟨0, 0, 0⟩, s) := by
  rw [ray_color]
  simp [hd]

/-- Witness of C1 on the small scene, whose state counts the calls: with budget `0` and `-3` the
colour is black and the call counter is still `0`. -/
theorem ray_color_depth_nonpos_witness :
    ray_color (scene_lib scene_sqrt) scene_mats scene_world ⟨⟨0, 0, 0⟩, ⟨1, -1, 0⟩⟩ 0 0 = (⟨0, 0, 0⟩, 0)
    ∧ ray_color (scene_lib scene_sqrt) scene_mats scene_world ⟨⟨0, 0, 0⟩, ⟨1, -1, 0⟩⟩ (-3) 0 = (⟨0, 0, 0⟩, 0) :=
  ⟨ray_color_depth_nonpos (scene_lib scene_sqrt) scene_mats scene_world _ 0 0 (by decide),
   ray_color_depth_nonpos (scene_lib scene_sqrt) scene_mats scene_world _ (-3) 0 (by decide)⟩

/-- C2: for a depth budget `depth ≥ 1` and a ray that `world.hit` reports hit on `(0.001, ∞)` with
record `rec`: if the material of `rec` scatters with attenuation `A` and scattered ray `R`, then
`ray_color` is the element-wise product of `A` and `ray_color` of `R` with budget `depth - 1`; if
the material does not scatter, `ray_color` is black. -/
theorem ray_color_hit (lib : rtutils K S) (mats : material K M S) (world : hittable K M S)
    (r : ray K) (depth : Int) (s s1 : S) (rec : hit_record K M) (hd : 1 ≤ depth)
    (hhit : world.hit r (1 / 1000) ⊤ s = (some rec, s1)) :
    (∀ (A : color K) (R : ray K) (s2 : S),
        mats.scatter rec.mat_ptr r rec s1 = (some (A, R), s2) →
        ray_color lib mats world r depth s
          = (A.mul (ray_color lib mats world R (depth - 1) s2).1,
             (ray_color lib mats world R (depth - 1) s2).2))
    ∧ (∀ s2 : S, mats.scatter rec.mat_ptr r rec s1 = (none, s2) →
        ray_color lib mats world r depth s = (⟨0, 0, 0⟩, s2)) := by
  constructor
  · intro A R s2 hsc
    rw [ray_color_step lib mats world r depth s hd]
    simp only [hhit, hsc]
  · intro s2 hsc
    rw [ray_color_step lib mats world r depth s hd]
    simp only [hhit, hsc]

/-- Witness of C2 on the small scene: a ray down to the right is scattered straight up by the grey
floor and gets half the zenith colour after three calls; a ray down to the left is absorbed after
two. -/
theorem ray_color_hit_witness :
    ray_color (scene_lib scene_sqrt) scene_mats scene_world ⟨⟨0, 0, 0⟩, ⟨1, -1, 0⟩⟩ 2 0
      = (⟨1 / 4, 7 / 20, 1 / 2⟩, 3)
    ∧ ray_color (scene_lib scene_sqrt) scene_mats scene_world ⟨⟨0, 0, 0⟩, ⟨-1, -1, 0⟩⟩ 2 0
      = (⟨0, 0, 0⟩, 2) := by
  constructor
  · have h := (ray_color_hit (scene_lib scene_sqrt) scene_mats scene_world ⟨⟨0, 0, 0⟩, ⟨1, -1, 0⟩⟩ 2 0 1
      { p := ⟨1, -1, 0⟩, normal := ⟨0, 1, 0⟩, mat_ptr := true, t := 1, front_face := true }
      (by decide) (by norm_num [scene_world, ray.at, vec3.add, vec3.smul])).1
      ⟨1 / 2, 1 / 2, 1 / 2⟩ ⟨⟨1, -1, 0⟩, ⟨0, 1, 0⟩⟩ 2 (by simp [scene_mats])
    rw [h, scene_up _ scene_sqrt_one _ _ _ (by decide)]
    norm_num [vec3.mul]
  · exact (ray_color_hit (scene_lib scene_sqrt) scene_mats scene_world ⟨⟨0, 0, 0⟩, ⟨-1, -1, 0⟩⟩ 2 0 1
      { p := ⟨-1, -1, 0⟩, normal := ⟨0, 1, 0⟩, mat_ptr := false, t := 1, front_face := true }
      (by decide) (by norm_num [scene_world, ray.at, vec3.add, vec3.smul])).2 2
      (by simp [scene_mats])

/-- C3: for a depth budget `depth ≥ 1` and a ray that `world.hit` misses, `ray_color` is
`(1-t)*(1,1,1) + t*(0.5,0.7,1.0)` with `t = 0.5*(y+1)`, `y` the y-component of the unit direction;
for `y = 1` this is `(0.5, 0.7, 1.0)` and for `y = -1` it is `(1, 1, 1)`. -/
theorem ray_color_miss (lib : rtutils K S) (mats : material K M S) (world : hittable K M S)
    (r : ray K) (depth : Int) (s s1 : S) (hd : 1 ≤ depth)
    (hmiss : world.hit r (1 / 1000) ⊤ s = (none, s1)) :
    ray_color lib mats world r depth s
      = ((vec3.smul (1 - 1 / 2 * ((unit_vector lib.sqrt r.dir).y + 1)) ⟨1, 1, 1⟩).add
          (vec3.smul (1 / 2 * ((unit_vector lib.sqrt r.dir).y + 1)) ⟨1 / 2, 7 / 10, 1⟩), s1)
    ∧ ((unit_vector lib.sqrt r.dir).y = 1 →
        ray_color lib mats world r depth s = (⟨1 / 2, 7 / 10, 1⟩, s1))
    ∧ ((unit_vector lib.sqrt r.dir).y = -1 →
        ray_color lib mats world r depth s = (⟨1, 1, 1⟩, s1)) := by
  have h : ray_color lib mats world r depth s
      = ((vec3.smul (1 - 1 / 2 * ((unit_vector lib.sqrt r.dir).y + 1)) ⟨1, 1, 1⟩).add
          (vec3.smul (1 / 2 * ((unit_vector lib.sqrt r.dir).y + 1)) ⟨1 / 2, 7 / 10, 1⟩), s1) := by
    rw [ray_color_step lib mats world r depth s hd]
    simp only [hmiss]
  refine ⟨h, ?_, ?_⟩
  · intro hy
    rw [h, hy]
    simp only [vec3.smul, vec3.add]
    norm_num
  · intro hy
    rw [h, hy]
    simp only [vec3.smul, vec3.add]
    norm_num

/-- Witness of C3 on the small scene, with the unit directions computed by `unit_vector`: a
ray straight up misses and gets `(0.5, 0.7, 1.0)`. -/
theorem ray_color_miss_witness :
    ((unit_vector (scene_lib scene_sqrt).sqrt (⟨0, 1, 0⟩ : vec3 ℚ)).y = 1
      ∧ ray_color (scene_lib scene_sqrt) scene_mats scene_world ⟨⟨0, 0, 0⟩, ⟨0, 1, 0⟩⟩ 50 0
        = (⟨1 / 2, 7 / 10, 1⟩, 1))
    ∧ ((unit_vector (scene_lib scene_sqrt).sqrt (⟨0, -1, 0⟩ : vec3 ℚ)).y = -1
      ∧ ray_color (scene_lib scene_sqrt) scene_mats scene_empty ⟨⟨0, 0, 0⟩, ⟨0, -1, 0⟩⟩ 50 0
        = (⟨1, 1, 1⟩, 1)) := by
  have hy' : (unit_vector (scene_lib scene_sqrt).sqrt (⟨0, -1, 0⟩ : vec3 ℚ)).y = -1 := by
    simp only [scene_lib, unit_vector, vec3.div, vec3.length, vec3.length_squared, vec3.smul,
      vec3.y]
    norm_num [scene_sqrt_one]
  refine ⟨?_, hy', (ray_color_miss (scene_lib scene_sqrt) scene_mats scene_empty ⟨⟨0, 0, 0⟩, ⟨0, -1, 0⟩⟩ 50 0 1
    (by decide) (by simp [scene_empty])).2.2 hy'⟩
  have hy : (unit_vector (scene_lib scene_sqrt).sqrt (⟨0, 1, 0⟩ : vec3 ℚ)).y = 1 := by
    simp only [scene_lib, unit_vector, vec3.div, vec3.length, vec3.length_squared, vec3.smul,
      vec3.y]
    norm_num [scene_sqrt_one]
  exact ⟨hy, (ray_color_miss (scene_lib scene_sqrt) scene_mats scene_world ⟨⟨0, 0, 0⟩, ⟨0, 1, 0⟩⟩ 50 0 1
    (by decide) (by norm_num [scene_world])).2.1 hy⟩

end IntegratorTheorems

section SchedulerTheorems

variable {K M S : Type}

/-- The constant `image_height` evaluates to 225. -/
theorem image_height_eq : image_height = 225 := by
  simp only [image_height, image_width, aspect_ratio, static_cast_int]
  norm_num

/-- The constant `pixelCount` evaluates to 90000. -/
theorem pixelCount_eq : pixelCount = 90000 := by
  simp only [pixelCount, image_height_eq, image_width]
  norm_num

/-- Row-major enumeration of a `W` by `H` grid counts from `0` to `H * W - 1`. -/
theorem range_grid (W H : Nat) :
    ((List.range H).map fun j => (List.range W).map fun i => j * W + i).flatten
      = List.range (H * W) := by
  induction H with
  | zero => simp
  | succ n ih =>
    rw [List.range_succ, List.map_append, List.flatten_append, ih, Nat.succ_mul, List.range_add]
    simp

/-- Inside the image the index of pixel `(i, j)` is the natural number `j * w + i`: the
conversion to `unsigned int` changes nothing. -/
theorem pixel_index_nat (W H i j : Nat) (hlt : W * H < 2 ^ 32) (hi : i < W) (hj : j < H) :
    pixel_index (W : Int) (i : Int) (j : Int) = j * W + i ∧ j * W + i < W * H := by
  have hb : j * W + i < W * H := by
    have h1 : j * W + W ≤ H * W := by
      rw [← Nat.succ_mul]
      exact Nat.mul_le_mul_right W hj
    rw [Nat.mul_comm W H]
    omega
  have hc : ((j : Int) * (W : Int) + (i : Int)) = ((j * W + i : Nat) : Int) := by
    push_cast
    ring
  refine ⟨?_, hb⟩
  rw [pixel_index, hc,
    Int.emod_eq_of_lt (Int.natCast_nonneg _) (by exact_mod_cast lt_trans hb hlt),
    Int.toNat_natCast]

/-- The indices of the dispatched results, in launch order, are `0, 1, ..., w*h - 1`. -/
theorem dispatch_indices (task : Int → Int → RayResult K) (W H : Nat) (hlt : W * H < 2 ^ 32)
    (htask : ∀ i j, (task i j).index = pixel_index (W : Int) i j) :
    (dispatch task (W : Int) (H : Int)).map RayResult.index = List.range (W * H) := by
  rw [Nat.mul_comm, ← range_grid W H]
  simp only [dispatch, List.map_flatten, List.map_map, Int.toNat_natCast]
  congr 1
  apply List.map_congr_left
  intro j hj
  simp only [Function.comp, List.map_map]
  apply List.map_congr_left
  intro i hi
  rw [List.mem_range] at hi hj
  simp only [Function.comp, htask]
  exact (pixel_index_nat W H i j hlt hi hj).1

/-- Every dispatched result is the value of the task of some pixel of the image. -/
theorem mem_dispatch (task : Int → Int → RayResult K) (W H : Nat) (rr : RayResult K) :
    rr ∈ dispatch task (W : Int) (H : Int)
      ↔ ∃ i j : Nat, i < W ∧ j < H ∧ rr = task (i : Int) (j : Int) := by
  simp only [dispatch, List.mem_flatten, List.mem_map, List.mem_range, Int.toNat_natCast]
  constructor
  · rintro ⟨l, ⟨j, hj, rfl⟩, hrr⟩
    rw [List.mem_map] at hrr
    obtain ⟨i, hi, rfl⟩ := hrr
    exact ⟨i, j, List.mem_range.mp hi, hj, rfl⟩
  · rintro ⟨i, j, hi, hj, rfl⟩
    exact ⟨_, ⟨j, hj, rfl⟩, List.mem_map.mpr ⟨i, List.mem_range.mpr hi, rfl⟩⟩

/-- The merge loop keeps the size of the buffer. -/
theorem merge_length (image : List (vec3 K)) (results : List (RayResult K)) :
    (merge image results).length = image.length := by
  induction results generalizing image with
  | nil => rfl
  | cons x xs ih =>
    simp only [merge, List.foldl_cons] at ih ⊢
    rw [ih, List.length_set]

/-- The merge loop leaves alone a cell that no result names. -/
theorem merge_get_of_not_mem (image : List (vec3 K)) (results : List (RayResult K)) (k : Nat)
    (hk : k ∉ results.map RayResult.index) : (merge image results)[k]? = image[k]? := by
  induction results generalizing image with
  | nil => rfl
  | cons x xs ih =>
    simp only [List.map_cons, List.mem_cons, not_or] at hk
    simp only [merge, List.foldl_cons] at ih ⊢
    rw [ih _ hk.2, List.getElem?_set_ne (Ne.symm hk.1)]

/-- After the merge loop the cell a result names holds that result's colour, when no other result
names the same cell. -/
theorem merge_get_of_mem (image : List (vec3 K)) (results : List (RayResult K))
    (rr : RayResult K) (hnd : (results.map RayResult.index).Nodup) (hmem : rr ∈ results)
    (hlt : rr.index < image.length) : (merge image results)[rr.index]? = some rr.color := by
  induction results generalizing image with
  | nil => cases hmem
  | cons x xs ih =>
    rw [List.map_cons, List.nodup_cons] at hnd
    simp only [merge, List.foldl_cons] at ih ⊢
    rcases List.mem_cons.mp hmem with h | h
    · subst h
      have := merge_get_of_not_mem (image.set rr.index rr.color) xs rr.index hnd.1
      simp only [merge] at this
      rw [this, List.getElem?_set_eq_of_lt _ hlt]
    · exact ih _ hnd.2 h (by rw [List.length_set]; exact hlt)

/-- The merge loop gives the same buffer for every order of the results, when no two results
name the same cell. -/
theorem merge_perm (image : List (vec3 K)) (results results' : List (RayResult K))
    (hnd : (results.map RayResult.index).Nodup) (hp : results.Perm results') :
    merge image results = merge image results' := by
  apply List.Perm.foldl_eq' hp
  intro x hx y hy z
  by_cases hxy : x.index = y.index
  · have : x = y := List.inj_on_of_nodup_map hnd hx hy hxy
    rw [this]
  · exact List.set_comm _ _ _ hxy

end SchedulerTheorems

section ImageTheorems

variable {K M S : Type} [LinearOrderedField K]

/-- The index of the task result of pixel `(i, j)`. -/
theorem pixel_task_index (lib : rtutils K S) (cam : camera K S) (mats : material K M S)
    (world : hittable K M S) (spp w h i j : Int) (s : S) :
    (pixel_task lib cam mats world spp w h i j s).1.index = pixel_index w i j :=
  rfl

/-- The indices of the task results, in launch order, are `0, 1, ..., w*h - 1`. -/
theorem task_results_indices (lib : rtutils K S) (cam : camera K S) (mats : material K M S)
    (world : hittable K M S) (seed : Int → Int → S) (spp : Int) (W H : Nat)
    (hlt : W * H < 2 ^ 32) :
    (task_results lib cam mats world seed spp (W : Int) (H : Int)).map RayResult.index
      = List.range (W * H) :=
  dispatch_indices _ W H hlt (fun _ _ => rfl)

/-- The size of the buffer `new vec3[w * h]`. -/
theorem new_image_length (W H : Nat) :
    (new_image ((W : Int) * (H : Int)) : List (vec3 K)).length = W * H := by
  rw [new_image, List.length_replicate, ← Int.natCast_mul, Int.toNat_natCast]

/-- After the merge loop the cell `j * w + i` holds the colour of the task of pixel `(i, j)`. -/
theorem merged_cell (lib : rtutils K S) (cam : camera K S) (mats : material K M S)
    (world : hittable K M S) (seed : Int → Int → S) (spp : Int) (W H i j : Nat)
    (hlt : W * H < 2 ^ 32) (hi : i < W) (hj : j < H) :
    (merge (new_image ((W : Int) * (H : Int)))
        (task_results lib cam mats world seed spp (W : Int) (H : Int)))[j * W + i]?
      = some (pixel_task lib cam mats world spp (W : Int) (H : Int) (i : Int) (j : Int)
          (seed (i : Int) (j : Int))).1.color := by
  have hidx := pixel_index_nat W H i j hlt hi hj
  have hnd : ((task_results lib cam mats world seed spp (W : Int) (H : Int)).map
      RayResult.index).Nodup := by
    rw [task_results_indices lib cam mats world seed spp W H hlt]
    exact List.nodup_range _
  have hmem : (pixel_task lib cam mats world spp (W : Int) (H : Int) (i : Int) (j : Int)
      (seed (i : Int) (j : Int))).1 ∈ task_results lib cam mats world seed spp (W : Int) (H : Int) :=
    (mem_dispatch _ W H _).mpr ⟨i, j, hi, hj, rfl⟩
  have h := merge_get_of_mem (new_image ((W : Int) * (H : Int))) _ _ hnd hmem
    (by rw [new_image_length, pixel_task_index, hidx.1]; exact hidx.2)
  rw [pixel_task_index, hidx.1] at h
  exact h

/-- C5: for an image of `w` by `h` pixels whose pixel count fits an `int`, the indices
`j*w + i` of the task results are, in launch order, exactly `0, 1, ..., w*h - 1`; hence every cell
of the buffer is named by exactly one result, every index lies inside the buffer, `(i, j) ↦ index`
is one-to-one on the pixels and onto the cells, and the merge loop keeps the buffer's size; after
the merge loop the cell every result names holds that result's colour, so every cell `k` of the
buffer holds the colour of the one task whose index is `k`. -/
theorem image_written_once (lib : rtutils K S) (cam : camera K S) (mats : material K M S)
    (world : hittable K M S) (seed : Int → Int → S) (spp w h : Int)
    (hw : 0 ≤ w) (hh : 0 ≤ h) (hwh : w * h < 2 ^ 31) :
    (task_results lib cam mats world seed spp w h).map RayResult.index
        = List.range (w * h).toNat
    ∧ (new_image (w * h) : List (vec3 K)).length = (w * h).toNat
    ∧ (merge (new_image (w * h)) (task_results lib cam mats world seed spp w h)).length
        = (w * h).toNat
    ∧ (∀ k : Nat, k < (w * h).toNat →
        (task_results lib cam mats world seed spp w h).countP
          (fun rr => decide (rr.index = k)) = 1)
    ∧ (∀ rr ∈ task_results lib cam mats world seed spp w h,
        rr.index < (new_image (w * h) : List (vec3 K)).length)
    ∧ (∀ i j i' j' : Int, 0 ≤ i → i < w → 0 ≤ j → j < h → 0 ≤ i' → i' < w → 0 ≤ j' → j' < h →
        pixel_index w i j = pixel_index w i' j' → i = i' ∧ j = j')
    ∧ (∀ k : Nat, k < (w * h).toNat →
        ∃ i j : Int, 0 ≤ i ∧ i < w ∧ 0 ≤ j ∧ j < h ∧ pixel_index w i j = k)
    ∧ (∀ rr ∈ task_results lib cam mats world seed spp w h,
        (merge (new_image (w * h)) (task_results lib cam mats world seed spp w h))[rr.index]?
          = some rr.color)
    ∧ (∀ k : Nat, k < (w * h).toNat →
        ∃ i j : Int, 0 ≤ i ∧ i < w ∧ 0 ≤ j ∧ j < h ∧ pixel_index w i j = k
          ∧ (merge (new_image (w * h)) (task_results lib cam mats world seed spp w h))[k]?
            = some (pixel_task lib cam mats world spp w h i j (seed i j)).1.color) := by
  obtain ⟨W, rfl⟩ := Int.eq_ofNat_of_zero_le hw
  obtain ⟨H, rfl⟩ := Int.eq_ofNat_of_zero_le hh
  have hmul : ((W : Int) * (H : Int)).toNat = W * H := by
    rw [← Int.natCast_mul, Int.toNat_natCast]
  have hlt : W * H < 2 ^ 32 := by
    have h1 : ((W * H : Nat) : Int) < 2 ^ 31 := by
      rw [Int.natCast_mul]
      exact hwh
    have h2 : W * H < 2 ^ 31 := by exact_mod_cast h1
    omega
  have hidx := task_results_indices lib cam mats world seed spp W H hlt
  rw [hmul]
  refine ⟨hidx, new_image_length W H, ?_, ?_, ?_, ?_, ?_, ?_, ?_⟩
  · rw [merge_length, new_image_length]
  · intro k hk
    have hc : (List.range (W * H)).count k = 1 :=
      List.count_eq_one_of_mem (List.nodup_range _) (List.mem_range.mpr hk)
    rw [← hidx, List.count_eq_countP, List.countP_map] at hc
    rw [← hc]
    apply List.countP_congr
    intro rr _
    simp
  · intro rr hrr
    rw [new_image_length]
    have : rr.index ∈ List.range (W * H) := by
      rw [← hidx]
      exact List.mem_map.mpr ⟨rr, hrr, rfl⟩
    exact List.mem_range.mp this
  · intro i j i' j' hi0 hi hj0 hj hi0' hi' hj0' hj' heq
    obtain ⟨a, rfl⟩ := Int.eq_ofNat_of_zero_le hi0
    obtain ⟨b, rfl⟩ := Int.eq_ofNat_of_zero_le hj0
    obtain ⟨a', rfl⟩ := Int.eq_ofNat_of_zero_le hi0'
    obtain ⟨b', rfl⟩ := Int.eq_ofNat_of_zero_le hj0'
    have ha : a < W := by exact_mod_cast hi
    have hb : b < H := by exact_mod_cast hj
    have ha' : a' < W := by exact_mod_cast hi'
    have hb' : b' < H := by exact_mod_cast hj'
    rw [(pixel_index_nat W H a b hlt ha hb).1, (pixel_index_nat W H a' b' hlt ha' hb').1] at heq
    have hd := congrArg (· / W) heq
    have hW : 0 < W := by omega
    rw [Nat.add_comm (b * W), Nat.add_comm (b' * W)] at hd
    simp only [Nat.add_mul_div_right _ _ hW, Nat.div_eq_of_lt ha, Nat.div_eq_of_lt ha',
      Nat.zero_add] at hd
    subst hd
    have hm : a = a' := by omega
    exact ⟨by rw [hm], rfl⟩
  · intro k hk
    have hW : 0 < W := by
      rcases Nat.eq_zero_or_pos W with h0 | h0
      · rw [h0, Nat.zero_mul] at hk
        omega
      · exact h0
    have hi : k % W < W := Nat.mod_lt _ hW
    have hj : k / W < H := by
      rw [Nat.div_lt_iff_lt_mul hW, Nat.mul_comm]
      exact hk
    refine ⟨((k % W : Nat) : Int), ((k / W : Nat) : Int), Int.natCast_nonneg _,
      by exact_mod_cast hi, Int.natCast_nonneg _, by exact_mod_cast hj, ?_⟩
    rw [(pixel_index_nat W H (k % W) (k / W) hlt hi hj).1]
    exact Nat.div_add_mod' k W
  · intro rr hrr
    have hnd : ((task_results lib cam mats world seed spp (W : Int) (H : Int)).map
        RayResult.index).Nodup := by
      rw [hidx]
      exact List.nodup_range _
    apply merge_get_of_mem _ _ _ hnd hrr
    rw [new_image_length]
    have : rr.index ∈ List.range (W * H) := by
      rw [← hidx]
      exact List.mem_map.mpr ⟨rr, hrr, rfl⟩
    exact List.mem_range.mp this
  · intro k hk
    have hW : 0 < W := by
      rcases Nat.eq_zero_or_pos W with h0 | h0
      · rw [h0, Nat.zero_mul] at hk
        omega
      · exact h0
    have hi : k % W < W := Nat.mod_lt _ hW
    have hj : k / W < H := by
      rw [Nat.div_lt_iff_lt_mul hW, Nat.mul_comm]
      exact hk
    have hcell := merged_cell lib cam mats world seed spp W H (k % W) (k / W) hlt hi hj
    rw [Nat.div_add_mod' k W] at hcell
    refine ⟨((k % W : Nat) : Int), ((k / W : Nat) : Int), Int.natCast_nonneg _,
      by exact_mod_cast hi, Int.natCast_nonneg _, by exact_mod_cast hj, ?_, hcell⟩
    rw [(pixel_index_nat W H (k % W) (k / W) hlt hi hj).1]
    exact Nat.div_add_mod' k W

/-- The pixel count of `main` as a natural number. -/
theorem main_pixels : (image_width * image_height).toNat = 90000 := by
  rw [image_height_eq, image_width]
  rfl

/-- Witness of C5 at the constants of `main` (400 by 225 pixels), on the small scene: the indices
are `0 .. 89999` in launch order, and the last cell is named by exactly one result. -/
theorem image_written_once_witness :
    (0 ≤ image_width ∧ 0 ≤ image_height ∧ image_width * image_height < 2 ^ 31)
    ∧ (main_results (scene_lib scene_sqrt) scene_cam scene_mats scene_world
        (fun _ _ => 0)).map RayResult.index = List.range 90000
    ∧ (main_results (scene_lib scene_sqrt) scene_cam scene_mats scene_world
        (fun _ _ => 0)).countP (fun rr => decide (rr.index = 89999)) = 1
    ∧ (∃ i j : Int, 0 ≤ i ∧ i < image_width ∧ 0 ≤ j ∧ j < image_height
        ∧ pixel_index image_width i j = 89999
        ∧ (main_image (scene_lib scene_sqrt) scene_cam scene_mats scene_world
            (fun _ _ => 0))[89999]?
          = some (pixel_task (scene_lib scene_sqrt) scene_cam scene_mats scene_world
              samples_per_pixel image_width image_height i j 0).1.color) := by
  have h1 : 0 ≤ image_width := by decide
  have h2 : 0 ≤ image_height := by rw [image_height_eq]; decide
  have h3 : image_width * image_height < 2 ^ 31 := by
    rw [image_height_eq, image_width]
    decide
  have h := image_written_once (scene_lib scene_sqrt) scene_cam scene_mats scene_world
    (fun _ _ => 0) samples_per_pixel image_width image_height h1 h2 h3
  rw [main_pixels] at h
  exact ⟨⟨h1, h2, h3⟩, h.1, h.2.2.2.1 89999 (by decide), h.2.2.2.2.2.2.2.2 89999 (by decide)⟩

/-- C8: for an image of `w` by `h` pixels whose pixel count fits an `int`, writing the task
results into the zero-initialized buffer in any permutation of the launch order gives the same
buffer as the launch order, and in that buffer the cell `j*w + i` holds the colour computed by the
task of pixel `(i, j)`. -/
theorem merge_order_independent (lib : rtutils K S) (cam : camera K S) (mats : material K M S)
    (world : hittable K M S) (seed : Int → Int → S) (spp w h : Int)
    (hw : 0 ≤ w) (hh : 0 ≤ h) (hwh : w * h < 2 ^ 31) :
    (∀ results' : List (RayResult K),
        (task_results lib cam mats world seed spp w h).Perm results' →
        merge (new_image (w * h)) results'
          = merge (new_image (w * h)) (task_results lib cam mats world seed spp w h))
    ∧ (∀ i j : Int, 0 ≤ i → i < w → 0 ≤ j → j < h →
        (merge (new_image (w * h))
            (task_results lib cam mats world seed spp w h))[(j * w + i).toNat]?
          = some (pixel_task lib cam mats world spp w h i j (seed i j)).1.color) := by
  obtain ⟨W, rfl⟩ := Int.eq_ofNat_of_zero_le hw
  obtain ⟨H, rfl⟩ := Int.eq_ofNat_of_zero_le hh
  have hlt : W * H < 2 ^ 32 := by
    have h1 : ((W * H : Nat) : Int) < 2 ^ 31 := by
      rw [Int.natCast_mul]
      exact hwh
    have h2 : W * H < 2 ^ 31 := by exact_mod_cast h1
    omega
  constructor
  · intro results' hp
    have hnd : ((task_results lib cam mats world seed spp (W : Int) (H : Int)).map
        RayResult.index).Nodup := by
      rw [task_results_indices lib cam mats world seed spp W H hlt]
      exact List.nodup_range _
    exact (merge_perm _ _ _ hnd hp).symm
  · intro i j hi0 hi hj0 hj
    obtain ⟨a, rfl⟩ := Int.eq_ofNat_of_zero_le hi0
    obtain ⟨b, rfl⟩ := Int.eq_ofNat_of_zero_le hj0
    have ha : a < W := by exact_mod_cast hi
    have hb : b < H := by exact_mod_cast hj
    have hc : ((b : Int) * (W : Int) + (a : Int)).toNat = b * W + a := by
      rw [← Int.natCast_mul, ← Int.natCast_add, Int.toNat_natCast]
    rw [hc]
    exact merged_cell lib cam mats world seed spp W H a b hlt ha hb

/-- Witness of C8 at the constants of `main`, on the small scene: merging the results in reverse
launch order gives the same buffer, and its last cell `224*400 + 399` holds the colour of the task
of pixel `(399, 224)`. -/
theorem merge_order_independent_witness :
    merge (new_image (image_width * image_height))
        (main_results (scene_lib scene_sqrt) scene_cam scene_mats scene_world
          (fun _ _ => 0)).reverse
      = merge (new_image (image_width * image_height))
        (main_results (scene_lib scene_sqrt) scene_cam scene_mats scene_world (fun _ _ => 0))
    ∧ (main_image (scene_lib scene_sqrt) scene_cam scene_mats scene_world
        (fun _ _ => 0))[89999]?
      = some (pixel_task (scene_lib scene_sqrt) scene_cam scene_mats scene_world
          samples_per_pixel image_width image_height 399 224 0).1.color := by
  have h1 : 0 ≤ image_width := by decide
  have h2 : 0 ≤ image_height := by rw [image_height_eq]; decide
  have h3 : image_width * image_height < 2 ^ 31 := by
    rw [image_height_eq, image_width]
    decide
  have h := merge_order_independent (scene_lib scene_sqrt) scene_cam scene_mats scene_world
    (fun _ _ => 0) samples_per_pixel image_width image_height h1 h2 h3
  refine ⟨h.1 _ (List.reverse_perm _).symm, ?_⟩
  have h4 := h.2 399 224 (by decide) (by decide) (by decide) (by rw [image_height_eq]; decide)
  have h5 : (224 * image_width + 399).toNat = 89999 := by
    rw [image_width]
    rfl
  rw [h5] at h4
  exact h4

/-- The buffer of `main` after the merge loop: cell `k` holds the colour of the task of the
pixel in row `k / 400` and column `k % 400`. -/
theorem main_image_cell (lib : rtutils K S) (cam : camera K S) (mats : material K M S)
    (world : hittable K M S) (seed : Int → Int → S) (k : Nat) (hk : k < 90000) :
    (main_image lib cam mats world seed)[k]?
      = some (pixel_task lib cam mats world samples_per_pixel image_width image_height
          ((k % 400 : Nat) : Int) ((k / 400 : Nat) : Int)
          (seed ((k % 400 : Nat) : Int) ((k / 400 : Nat) : Int))).1.color := by
  have hw : image_width = ((400 : Nat) : Int) := rfl
  have hh : image_height = ((225 : Nat) : Int) := by rw [image_height_eq]; rfl
  have h := merged_cell lib cam mats world seed samples_per_pixel 400 225 (k % 400) (k / 400)
    (by decide) (Nat.mod_lt _ (by decide)) (by omega)
  rw [Nat.div_add_mod' k 400, ← hw, ← hh] at h
  exact h

/-- No digit character is a newline. -/
theorem digitChar_ne_newline (n : Nat) : Nat.digitChar n ≠ '\n' := by
  by_cases h : n < 16
  · interval_cases n <;> decide
  · unfold Nat.digitChar
    repeat rw [if_neg (by omega)]
    decide

/-- The digits of a number contain no newline. -/
theorem toDigitsCore_no_newline (b : Nat) :
    ∀ (fuel n : Nat) (ds : List Char), '\n' ∉ ds → '\n' ∉ Nat.toDigitsCore b fuel n ds := by
  intro fuel
  induction fuel with
  | zero =>
    intro n ds h
    simpa [Nat.toDigitsCore] using h
  | succ f ih =>
    intro n ds h
    have hcons : '\n' ∉ Nat.digitChar (n % b) :: ds := by
      simp only [List.mem_cons, not_or]
      exact ⟨fun e => digitChar_ne_newline _ e.symm, h⟩
    rw [Nat.toDigitsCore]
    split_ifs
    · exact hcons
    · exact ih _ _ hcons

/-- The decimal text of a natural number contains no newline. -/
theorem nat_toString_no_newline (n : Nat) : '\n' ∉ (toString n).data := by
  show '\n' ∉ (Nat.repr n).data
  simp only [Nat.repr, Nat.toDigits, List.asString]
  exact toDigitsCore_no_newline 10 _ _ [] (by simp)

/-- The decimal text of an integer, as `operator<<` writes it, contains no newline. -/
theorem int_toString_no_newline (z : Int) : '\n' ∉ (toString z).data := by
  cases z with
  | ofNat m => exact nat_toString_no_newline m
  | negSucc m =>
    show '\n' ∉ ("-" ++ toString (Nat.succ m)).data
    rw [String.data_append, List.mem_append, not_or]
    exact ⟨by decide, nat_toString_no_newline _⟩

/-- The text of a pixel line: three integers, a blank between them, a newline at the end. -/
theorem pixel_line_text [FloorRing K] (c : vec3 K) :
    pixel_line c
      = toString (static_cast_int (25599 / 100 * c.e2)) ++ " "
        ++ toString (static_cast_int (25599 / 100 * c.e1)) ++ " "
        ++ toString (static_cast_int (25599 / 100 * c.e0)) ++ "\n" :=
  rfl

/-- A pixel line is one line of text: its only newline is its last character. -/
theorem pixel_line_one_line [FloorRing K] (c : vec3 K) :
    ∃ body : List Char, (pixel_line c).data = body ++ ['\n'] ∧ '\n' ∉ body := by
  refine ⟨(toString (static_cast_int (25599 / 100 * c.e2)) ++ " "
    ++ toString (static_cast_int (25599 / 100 * c.e1)) ++ " "
    ++ toString (static_cast_int (25599 / 100 * c.e0))).data, ?_, ?_⟩
  · rw [pixel_line_text, String.data_append]
  · simp only [String.data_append, List.mem_append, not_or]
    exact ⟨⟨⟨⟨int_toString_no_newline _, by decide⟩, int_toString_no_newline _⟩, by decide⟩,
      int_toString_no_newline _⟩

/-- A pixel line contains exactly one newline. -/
theorem pixel_line_count [FloorRing K] (c : vec3 K) : (pixel_line c).data.count '\n' = 1 := by
  obtain ⟨body, hdata, hbody⟩ := pixel_line_one_line c
  rw [hdata, List.count_append, List.count_eq_zero_of_not_mem hbody]
  rfl

/-- The number of newlines in the concatenation of texts that hold one newline each. -/
theorem join_count (l : List String) (hl : ∀ s ∈ l, s.data.count '\n' = 1) :
    (String.join l).data.count '\n' = l.length := by
  rw [String.data_join]
  induction l with
  | nil => rfl
  | cons a l ih =>
    rw [List.map_cons, List.flatten_cons, List.count_append, hl a (List.mem_cons_self _ _),
      ih (fun s hs => hl s (List.mem_cons_of_mem _ hs)), List.length_cons, Nat.add_comm]

/-- C9: `image_height` evaluates to 225, the header written is `P3`, `400 225`, `255`, the text
written is the header followed by the pixel lines, there are exactly
`image_width * image_height = 90000` pixel lines, and line `k` (from 0) is the line of buffer cell
`k`, which holds the colour of the pixel in row `k / image_width` and column `k % image_width`.
Every pixel line is three integers separated by a blank and ended by a newline, its only one, so
the text after the header holds exactly 90000 newlines and the whole file `3 + 90000`. -/
theorem output_matches_dimensions [FloorRing K] (lib : rtutils K S) (cam : camera K S)
    (mats : material K M S) (world : hittable K M S) (seed : Int → Int → S) :
    image_width = 400 ∧ image_height = 225 ∧ image_width * image_height = 90000
    ∧ ppm_header image_width image_height = "P3\n400 225\n255\n"
    ∧ main_output lib cam mats world seed
        = "P3\n400 225\n255\n" ++ String.join (main_lines lib cam mats world seed)
    ∧ (main_lines lib cam mats world seed).length = 90000
    ∧ (∀ k : Nat, k < 90000 →
        (main_lines lib cam mats world seed)[k]?
          = some (pixel_line ((main_image lib cam mats world seed).getD k ⟨0, 0, 0⟩))
        ∧ (main_image lib cam mats world seed)[k]?
          = some (pixel_task lib cam mats world samples_per_pixel image_width image_height
              ((k % 400 : Nat) : Int) ((k / 400 : Nat) : Int)
              (seed ((k % 400 : Nat) : Int) ((k / 400 : Nat) : Int))).1.color
        ∧ k = (k / 400) * 400 + k % 400 ∧ k / 400 < 225 ∧ k % 400 < 400)
    ∧ (∀ c : vec3 K, pixel_line c
        = toString (static_cast_int (25599 / 100 * c.e2)) ++ " "
          ++ toString (static_cast_int (25599 / 100 * c.e1)) ++ " "
          ++ toString (static_cast_int (25599 / 100 * c.e0)) ++ "\n")
    ∧ (∀ s ∈ main_lines lib cam mats world seed,
        ∃ body : List Char, s.data = body ++ ['\n'] ∧ '\n' ∉ body)
    ∧ (String.join (main_lines lib cam mats world seed)).data.count '\n' = 90000
    ∧ (main_output lib cam mats world seed).data.count '\n' = 3 + 90000 := by
  have hhead : ppm_header image_width image_height = "P3\n400 225\n255\n" := by
    rw [image_height_eq, image_width]
    decide
  have hcount : (pixelCount % 2 ^ 32).toNat = 90000 := by
    rw [pixelCount_eq]
    rfl
  have hlen : (main_lines lib cam mats world seed).length = 90000 := by
    rw [main_lines, serialize, List.length_map, List.length_range, hcount]
  have hone : ∀ s ∈ main_lines lib cam mats world seed,
      ∃ body : List Char, s.data = body ++ ['\n'] ∧ '\n' ∉ body := by
    intro s hs
    rw [main_lines, serialize, List.mem_map] at hs
    obtain ⟨i, _, rfl⟩ := hs
    exact pixel_line_one_line _
  have hjoin : (String.join (main_lines lib cam mats world seed)).data.count '\n' = 90000 := by
    rw [join_count, hlen]
    intro s hs
    obtain ⟨body, hdata, hbody⟩ := hone s hs
    rw [hdata, List.count_append, List.count_eq_zero_of_not_mem hbody]
    rfl
  refine ⟨rfl, image_height_eq, ?_, hhead, ?_, hlen, ?_, pixel_line_text, hone, hjoin, ?_⟩
  · rw [image_height_eq, image_width]
    rfl
  · rw [main_output, hhead]
  · intro k hk
    refine ⟨?_, main_image_cell lib cam mats world seed k hk, (Nat.div_add_mod' k 400).symm,
      by omega, Nat.mod_lt _ (by decide)⟩
    rw [main_lines, serialize, hcount, List.getElem?_map, List.getElem?_range hk]
    rfl
  · rw [main_output, hhead, String.data_append, List.count_append, hjoin]
    rfl

/-- Witness of C9 on the small scene: 90000 pixel lines, the last of them the line of buffer
cell 89999, which holds the colour of the pixel in row 224 and column 399. -/
theorem output_matches_dimensions_witness :
    (main_lines (scene_lib scene_sqrt) scene_cam scene_mats scene_world (fun _ _ => 0)).length
      = 90000
    ∧ (main_lines (scene_lib scene_sqrt) scene_cam scene_mats scene_world (fun _ _ => 0))[89999]?
      = some (pixel_line ((main_image (scene_lib scene_sqrt) scene_cam scene_mats scene_world
          (fun _ _ => 0)).getD 89999 ⟨0, 0, 0⟩))
    ∧ (main_image (scene_lib scene_sqrt) scene_cam scene_mats scene_world (fun _ _ => 0))[89999]?
      = some (pixel_task (scene_lib scene_sqrt) scene_cam scene_mats scene_world
          samples_per_pixel image_width image_height 399 224 0).1.color := by
  have h := output_matches_dimensions (scene_lib scene_sqrt) scene_cam scene_mats
    (scene_world : hittable ℚ Bool Nat) (fun _ _ => 0)
  have h2 := h.2.2.2.2.2.2.1 89999 (by decide)
  exact ⟨h.2.2.2.2.2.1, h2.1, h2.2.1⟩

/-- Counterexample to C7 at the constants of `main`: in the last column, `i = 399`, the draw
`1/2` gives `u = 399.5 / 399`, which is above 1. -/
theorem pixel_coord_exceeds_one :
    (0 : Int) ≤ 399 ∧ (399 : Int) < image_width ∧ (0 : ℚ) ≤ 1 / 2 ∧ (1 / 2 : ℚ) < 1
    ∧ ¬ (pixel_coord 399 (1 / 2 : ℚ) image_width ≤ 1) := by
  refine ⟨by decide, by decide, by norm_num, by norm_num, ?_⟩
  simp only [pixel_coord, image_width]
  norm_num

/-- C7, amended: for an image of `w ≥ 2` by `h ≥ 2` pixels, every column `0 ≤ i < w`, row
`0 ≤ j < h` and draws `ru`, `rv` in `[0, 1)`, the coordinates `u = (i + ru)/(w - 1)` and
`v = (j + rv)/(h - 1)` satisfy `0 ≤ u < w/(w-1)` and `0 ≤ v < h/(h-1)`; `u ≤ 1` holds in every
column but the last and `v ≤ 1` in every row but the last. -/
theorem pixel_coord_range (w h i j : Int) (ru rv : K) (hw : 2 ≤ w) (hh : 2 ≤ h)
    (hi0 : 0 ≤ i) (hi : i < w) (hj0 : 0 ≤ j) (hj : j < h)
    (hru0 : 0 ≤ ru) (hru : ru < 1) (hrv0 : 0 ≤ rv) (hrv : rv < 1) :
    (0 ≤ pixel_coord i ru w ∧ pixel_coord i ru w < (w : K) / ((w - 1 : Int) : K))
    ∧ (0 ≤ pixel_coord j rv h ∧ pixel_coord j rv h < (h : K) / ((h - 1 : Int) : K))
    ∧ (i < w - 1 → pixel_coord i ru w ≤ 1)
    ∧ (j < h - 1 → pixel_coord j rv h ≤ 1) := by
  have key : ∀ (n a : Int) (r : K), 2 ≤ n → 0 ≤ a → a < n → 0 ≤ r → r < 1 →
      (0 ≤ pixel_coord a r n ∧ pixel_coord a r n < (n : K) / ((n - 1 : Int) : K))
      ∧ (a < n - 1 → pixel_coord a r n ≤ 1) := by
    intro n a r hn ha0 ha hr0 hr
    have hpos : (0 : K) < ((n - 1 : Int) : K) := by
      have : (0 : Int) < n - 1 := by omega
      exact_mod_cast this
    have ha0' : (0 : K) ≤ (a : K) := by exact_mod_cast ha0
    have ha' : (a : K) ≤ ((n - 1 : Int) : K) := by
      have : a ≤ n - 1 := by omega
      exact_mod_cast this
    have hn' : ((n - 1 : Int) : K) = (n : K) - 1 := by push_cast; ring
    simp only [pixel_coord]
    refine ⟨⟨div_nonneg (add_nonneg ha0' hr0) (le_of_lt hpos), ?_⟩, ?_⟩
    · apply div_lt_div_of_pos_right _ hpos
      rw [hn'] at ha'
      linarith
    · intro hlt
      rw [div_le_one hpos]
      have h1 : (a : K) + 1 ≤ ((n - 1 : Int) : K) := by
        have : a + 1 ≤ n - 1 := by omega
        exact_mod_cast this
      linarith
  have hu := key w i ru hw hi0 hi hru0 hru
  have hv := key h j rv hh hj0 hj hrv0 hrv
  exact ⟨hu.1, hv.1, hu.2, hv.2⟩

/-- Witness of C7 as amended, at the constants of `main` and the input of the counterexample:
in the last column and row with draws `1/2`, `u` and `v` are below `400/399` and `225/224`. -/
theorem pixel_coord_range_witness :
    (pixel_coord 399 (1 / 2 : ℚ) image_width < 400 / 399)
    ∧ (pixel_coord 224 (1 / 2 : ℚ) image_height < 225 / 224)
    ∧ (pixel_coord 398 (1 / 2 : ℚ) image_width ≤ 1) := by
  have h2 : (2 : Int) ≤ image_height := by rw [image_height_eq]; decide
  have h3 : (224 : Int) < image_height := by rw [image_height_eq]; decide
  have h := pixel_coord_range image_width image_height 399 224 (1 / 2 : ℚ) (1 / 2 : ℚ)
    (by decide) h2 (by decide) (by decide) (by decide) h3
    (by norm_num) (by norm_num) (by norm_num) (by norm_num)
  have h' := pixel_coord_range image_width image_height 398 224 (1 / 2 : ℚ) (1 / 2 : ℚ)
    (by decide) h2 (by decide) (by decide) (by decide) h3
    (by norm_num) (by norm_num) (by norm_num) (by norm_num)
  refine ⟨?_, ?_, h'.2.2.1 (by decide)⟩
  · have := h.1.2
    simp only [image_width] at this ⊢
    norm_num at this ⊢
    exact this
  · have := h.2.1.2
    simp only [image_height_eq] at this ⊢
    norm_num at this ⊢
    exact this

end ImageTheorems

section RangeTheorems

variable {K M S : Type} [LinearOrderedField K]

/-- The sky gradient of `ray_color` lies in `[0, 1]` when the unit direction has `y` in
`[-1, 1]`. -/
theorem sky_in_unit (y : K) (hy0 : -1 ≤ y) (hy1 : y ≤ 1) :
    ((vec3.smul (1 - 1 / 2 * (y + 1)) ⟨1, 1, 1⟩).add
      (vec3.smul (1 / 2 * (y + 1)) ⟨1 / 2, 7 / 10, 1⟩)).in_unit := by
  simp only [vec3.in_unit, vec3.within, vec3.smul, vec3.add]
  refine ⟨⟨?_, ?_⟩, ⟨?_, ?_⟩, ⟨?_, ?_⟩⟩ <;> linarith

/-- The element-wise product of two colours in `[0, 1]` lies in `[0, 1]`. -/
theorem mul_in_unit (a b : vec3 K) (ha : a.in_unit) (hb : b.in_unit) : (a.mul b).in_unit := by
  obtain ⟨⟨a0, a0'⟩, ⟨a1, a1'⟩, ⟨a2, a2'⟩⟩ := ha
  obtain ⟨⟨b0, b0'⟩, ⟨b1, b1'⟩, ⟨b2, b2'⟩⟩ := hb
  exact ⟨⟨mul_nonneg a0 b0, mul_le_one₀ a0' b0 b0'⟩, ⟨mul_nonneg a1 b1, mul_le_one₀ a1' b1 b1'⟩,
    ⟨mul_nonneg a2 b2, mul_le_one₀ a2' b2 b2'⟩⟩

/-- Every colour `ray_color` returns lies in `[0, 1]`, when attenuations do and unit directions
have `y` in `[-1, 1]`. -/
theorem ray_color_in_unit (lib : rtutils K S) (mats : material K M S) (world : hittable K M S)
    (hatt : ∀ m r rec s A R s', mats.scatter m r rec s = (some (A, R), s') → A.in_unit)
    (hunit : ∀ v : vec3 K, -1 ≤ (unit_vector lib.sqrt v).y ∧ (unit_vector lib.sqrt v).y ≤ 1)
    (r : ray K) (depth : Int) (s : S) : (ray_color lib mats world r depth s).1.in_unit := by
  have key : ∀ (n : Nat) (depth : Int), depth ≤ n → ∀ (r : ray K) (s : S),
      (ray_color lib mats world r depth s).1.in_unit := by
    intro n
    induction n with
    | zero =>
      intro depth hd r s
      rw [ray_color_base lib mats world r depth s (by exact_mod_cast hd)]
      simp [vec3.in_unit, vec3.within]
    | succ n ih =>
      intro depth hd r s
      by_cases h0 : depth ≤ 0
      · rw [ray_color_base lib mats world r depth s h0]
        simp [vec3.in_unit, vec3.within]
      · rw [ray_color_step lib mats world r depth s (by omega)]
        rcases hhit : world.hit r (1 / 1000) ⊤ s with ⟨_ | rec, s1⟩
        · simp only
          exact sky_in_unit _ (hunit r.dir).1 (hunit r.dir).2
        · simp only
          rcases hsc : mats.scatter rec.mat_ptr r rec s1 with ⟨_ | ⟨A, R⟩, s2⟩
          · simp [vec3.in_unit, vec3.within]
          · simp only
            exact mul_in_unit _ _ (hatt _ _ _ _ _ _ _ hsc)
              (ih (depth - 1) (by push_cast at hd; omega) R s2)
  exact key depth.toNat depth (Int.self_le_toNat depth) r s

/-- The sampling loop adds one colour of `[0, 1]` per iteration: after `n` iterations the sum
has grown by at most `n` per channel. -/
theorem pixel_samples_within (lib : rtutils K S) (cam : camera K S) (mats : material K M S)
    (world : hittable K M S)
    (hc : ∀ r depth s, (ray_color lib mats world r depth s).1.in_unit) (w h i j : Int) :
    ∀ (n : Nat) (acc : vec3 K) (s : S) (b : K), acc.within b →
      (pixel_samples lib cam mats world w h i j n acc s).1.within (b + n) := by
  intro n
  induction n with
  | zero =>
    intro acc s b hacc
    simpa [pixel_samples] using hacc
  | succ n ih =>
    intro acc s b hacc
    rw [pixel_samples]
    have hb : b + ((n + 1 : Nat) : K) = (b + 1) + (n : K) := by push_cast; ring
    rw [hb]
    apply ih
    have hcol := hc (cam.get_ray (pixel_coord i (lib.random_double s).1 w)
      (pixel_coord j (lib.random_double (lib.random_double s).2).1 h)
      (lib.random_double (lib.random_double s).2).2).1 max_depth
      (cam.get_ray (pixel_coord i (lib.random_double s).1 w)
      (pixel_coord j (lib.random_double (lib.random_double s).2).1 h)
      (lib.random_double (lib.random_double s).2).2).2
    simp only [vec3.in_unit, vec3.within, vec3.add] at hcol hacc ⊢
    obtain ⟨⟨a0, a0'⟩, ⟨a1, a1'⟩, ⟨a2, a2'⟩⟩ := hacc
    obtain ⟨⟨c0, c0'⟩, ⟨c1, c1'⟩, ⟨c2, c2'⟩⟩ := hcol
    refine ⟨⟨?_, ?_⟩, ⟨?_, ?_⟩, ⟨?_, ?_⟩⟩ <;> linarith

/-- The average of the samples of a pixel lies in `[0, 1]`. -/
theorem pixel_average_in_unit (lib : rtutils K S) (cam : camera K S) (mats : material K M S)
    (world : hittable K M S)
    (hc : ∀ r depth s, (ray_color lib mats world r depth s).1.in_unit) (spp w h i j : Int)
    (hspp : 0 < spp) (s : S) :
    ((pixel_samples lib cam mats world w h i j spp.toNat ⟨0, 0, 0⟩ s).1.div (spp : K)).in_unit := by
  have h0 : (⟨0, 0, 0⟩ : vec3 K).within 0 := by simp [vec3.within]
  have hs := pixel_samples_within lib cam mats world hc w h i j spp.toNat ⟨0, 0, 0⟩ s 0 h0
  have hn : ((spp.toNat : Nat) : K) = (spp : K) := by
    have : ((spp.toNat : Nat) : Int) = spp := Int.toNat_of_nonneg (le_of_lt hspp)
    exact_mod_cast this
  rw [zero_add, hn] at hs
  have hpos : (0 : K) < (spp : K) := by exact_mod_cast hspp
  have hinv : (0 : K) ≤ 1 / (spp : K) := by positivity
  simp only [vec3.in_unit, vec3.within, vec3.div, vec3.smul] at hs ⊢
  obtain ⟨⟨a0, a0'⟩, ⟨a1, a1'⟩, ⟨a2, a2'⟩⟩ := hs
  have key : ∀ x : K, 0 ≤ x → x ≤ (spp : K) → 0 ≤ 1 / (spp : K) * x ∧ 1 / (spp : K) * x ≤ 1 := by
    intro x hx hx'
    refine ⟨mul_nonneg hinv hx, ?_⟩
    rw [one_div, inv_mul_le_iff₀ hpos, mul_one]
    exact hx'
  exact ⟨key _ a0 a0', key _ a1 a1', key _ a2 a2'⟩

/-- The integer written for a channel in `[0, 1]` lies in `[0, 255]`. -/
theorem channel_range [FloorRing K] (x : K) (h0 : 0 ≤ x) (h1 : x ≤ 1) :
    0 ≤ static_cast_int (25599 / 100 * x) ∧ static_cast_int (25599 / 100 * x) ≤ 255 := by
  have hx : (0 : K) ≤ 25599 / 100 * x := by positivity
  simp only [static_cast_int, hx, if_true]
  refine ⟨Int.floor_nonneg.mpr hx, ?_⟩
  have hlt : (25599 / 100 * x : K) < ((256 : Int) : K) := by
    push_cast
    linarith
  have := Int.floor_lt.mpr hlt
  omega

/-- The integers of the line of a colour in `[0, 1]` lie in `[0, 255]`. -/
theorem pixel_channels_range [FloorRing K] (c : vec3 K) (hc : c.in_unit) :
    ∀ x ∈ pixel_channels c, 0 ≤ x ∧ x ≤ 255 := by
  obtain ⟨⟨a0, a0'⟩, ⟨a1, a1'⟩, ⟨a2, a2'⟩⟩ := hc
  intro x hx
  simp only [pixel_channels, List.mem_cons, List.mem_singleton, List.not_mem_nil, or_false] at hx
  rcases hx with rfl | rfl | rfl
  · exact channel_range _ a2 a2'
  · exact channel_range _ a1 a1'
  · exact channel_range _ a0 a0'

/-- The real square root gives unit directions with `y` in `[-1, 1]`. -/
theorem real_unit_vector_y (v : vec3 ℝ) :
    -1 ≤ (unit_vector Real.sqrt v).y ∧ (unit_vector Real.sqrt v).y ≤ 1 := by
  obtain ⟨a, b, c⟩ := v
  simp only [unit_vector, vec3.div, vec3.length, vec3.length_squared, vec3.smul, vec3.y]
  rw [← abs_le]
  have hb : |b| ≤ √(a * a + b * b + c * c) :=
    Real.abs_le_sqrt (by nlinarith [mul_self_nonneg a, mul_self_nonneg c])
  rcases eq_or_lt_of_le (Real.sqrt_nonneg (a * a + b * b + c * c)) with h | h
  · rw [← h]
    simp
  · rw [abs_mul, abs_of_nonneg (by positivity), one_div, inv_mul_le_iff₀ h, mul_one]
    exact hb

/-- C6: assume every attenuation a material returns has its channels in `[0, 1]`, unit
directions have `y` in `[-1, 1]` and `sqrt` maps `[0, 1]` into itself.  Then for every ray, depth
budget, pixel and course of the random draws: each channel of the result of `ray_color` lies in
`[0, 1]`, so do the per-pixel average and its square root (the colour of the task result), and
every integer written for a pixel, `trunc(255.99 * channel)`, lies in `[0, 255]`; so does every
integer of every pixel line of `main`. -/
theorem channels_in_range [FloorRing K] (lib : rtutils K S) (cam : camera K S)
    (mats : material K M S) (world : hittable K M S) (seed : Int → Int → S)
    (hatt : ∀ m r rec s A R s', mats.scatter m r rec s = (some (A, R), s') → A.in_unit)
    (hunit : ∀ v : vec3 K, -1 ≤ (unit_vector lib.sqrt v).y ∧ (unit_vector lib.sqrt v).y ≤ 1)
    (hsqrt : ∀ x : K, 0 ≤ x → x ≤ 1 → 0 ≤ lib.sqrt x ∧ lib.sqrt x ≤ 1) :
    (∀ r depth s, (ray_color lib mats world r depth s).1.in_unit)
    ∧ (∀ i j s, ((pixel_samples lib cam mats world image_width image_height i j
          samples_per_pixel.toNat ⟨0, 0, 0⟩ s).1.div (samples_per_pixel : K)).in_unit)
    ∧ (∀ i j s, (pixel_task lib cam mats world samples_per_pixel image_width image_height
          i j s).1.color.in_unit)
    ∧ (∀ i j s, ∀ x ∈ pixel_channels (pixel_task lib cam mats world samples_per_pixel
          image_width image_height i j s).1.color, 0 ≤ x ∧ x ≤ 255)
    ∧ (∀ k : Nat, k < 90000 →
        ∀ x ∈ pixel_channels ((main_image lib cam mats world seed).getD k ⟨0, 0, 0⟩),
          0 ≤ x ∧ x ≤ 255) := by
  have hc : ∀ r depth s, (ray_color lib mats world r depth s).1.in_unit :=
    ray_color_in_unit lib mats world hatt hunit
  have havg : ∀ i j s, ((pixel_samples lib cam mats world image_width image_height i j
      samples_per_pixel.toNat ⟨0, 0, 0⟩ s).1.div (samples_per_pixel : K)).in_unit :=
    fun i j s => pixel_average_in_unit lib cam mats world hc samples_per_pixel image_width
      image_height i j (by decide) s
  have htask : ∀ i j s, (pixel_task lib cam mats world samples_per_pixel image_width
      image_height i j s).1.color.in_unit := by
    intro i j s
    obtain ⟨⟨a0, a0'⟩, ⟨a1, a1'⟩, ⟨a2, a2'⟩⟩ := havg i j s
    exact ⟨hsqrt _ a0 a0', hsqrt _ a1 a1', hsqrt _ a2 a2'⟩
  refine ⟨hc, havg, htask, fun i j s => pixel_channels_range _ (htask i j s), ?_⟩
  intro k hk
  rw [List.getD_eq_getElem?_getD, main_image_cell lib cam mats world seed k hk, Option.getD_some]
  exact pixel_channels_range _ (htask _ _ _)

/-- Witness of C6 over `ℝ` with the real square root, on the small scene: the hypotheses hold
and the integers written for pixel `(0, 0)` lie in `[0, 255]`. -/
theorem channels_in_range_witness :
    (∀ v : vec3 ℝ, -1 ≤ (unit_vector Real.sqrt v).y ∧ (unit_vector Real.sqrt v).y ≤ 1)
    ∧ (∀ x : ℝ, 0 ≤ x → x ≤ 1 → 0 ≤ √x ∧ √x ≤ 1)
    ∧ (∀ x ∈ pixel_channels (pixel_task (scene_lib Real.sqrt) scene_cam scene_mats
          (scene_world : hittable ℝ Bool Nat) samples_per_pixel image_width image_height
          0 0 0).1.color, 0 ≤ x ∧ x ≤ 255) := by
  have hsqrt : ∀ x : ℝ, 0 ≤ x → x ≤ 1 → 0 ≤ √x ∧ √x ≤ 1 :=
    fun x _ h1 => ⟨Real.sqrt_nonneg x, Real.sqrt_le_one.mpr h1⟩
  have hatt : ∀ (m : Bool) (r : ray ℝ) (rec : hit_record ℝ Bool) (s : Nat) (A : color ℝ)
      (R : ray ℝ) (s' : Nat),
      (scene_mats : material ℝ Bool Nat).scatter m r rec s = (some (A, R), s') → A.in_unit := by
    intro m r rec s A R s' h
    cases m
    · simp [scene_mats] at h
    · simp only [scene_mats, if_true, Prod.mk.injEq, Option.some.injEq] at h
      rw [← h.1.1]
      simp only [vec3.in_unit, vec3.within]
      norm_num
  exact ⟨real_unit_vector_y, hsqrt,
    (channels_in_range (scene_lib Real.sqrt) scene_cam scene_mats
      (scene_world : hittable ℝ Bool Nat) (fun _ _ => 0) hatt real_unit_vector_y hsqrt).2.2.2.1
      0 0 0⟩

end RangeTheorems

section ChannelOrder

variable {K : Type} [LinearOrderedField K]

/-- On the small scene every sample of a pixel in column 0 is a ray straight up, which gets the
zenith colour: `n` iterations add `n` times `(0.5, 0.7, 1.0)` and make `4 * n` calls. -/
theorem scene_samples_zenith (sqrt : K → K) (h1 : sqrt 1 = 1) (h j : Int) :
    ∀ (n : Nat) (acc : vec3 K) (s : Nat),
      pixel_samples (scene_lib sqrt) scene_cam scene_mats scene_world image_width h 0 j n acc s
        = (acc.add (vec3.smul (n : K) ⟨1 / 2, 7 / 10, 1⟩), s + 4 * n) := by
  intro n
  induction n with
  | zero =>
    intro acc s
    obtain ⟨a, b, c⟩ := acc
    simp [pixel_samples, vec3.add, vec3.smul]
  | succ n ih =>
    intro acc s
    have hu : pixel_coord 0 (1 / 2 : K) image_width ≤ 1 / 2 := by
      simp only [pixel_coord, image_width]
      norm_num
    have hrd : ∀ t : Nat, (scene_lib sqrt).random_double t = (1 / 2, t + 1) := fun _ => rfl
    have hray : ∀ (v : K) (t : Nat),
        (scene_cam : camera K Nat).get_ray (pixel_coord 0 (1 / 2 : K) image_width) v t
          = (⟨⟨0, 0, 0⟩, ⟨0, 1, 0⟩⟩, t + 1) := by
      intro v t
      simp only [scene_cam, hu, if_true]
    have hup := scene_up sqrt h1 ⟨0, 0, 0⟩ max_depth (s + 1 + 1 + 1) (by decide)
    rw [pixel_samples]
    simp only [hrd, hray, hup, ih]
    obtain ⟨a, b, c⟩ := acc
    simp only [vec3.add, vec3.smul, Prod.mk.injEq, vec3.mk.injEq]
    refine ⟨⟨?_, ?_, ?_⟩, by omega⟩ <;> (push_cast; ring)

/-- C4, evaluated on the code (over `ℝ` with the real square root, pixel `(0, 0)` of the
small scene, all of whose samples get the zenith colour `(0.5, 0.7, 1.0)`): the colour of the
task result is `(√0.5, √0.7, 1)` in the red, green, blue convention of `ray_color`, and the
line written for it is `255 214 181`: the blue channel comes first and the red channel last. -/
theorem zenith_pixel_line :
    (pixel_task (scene_lib Real.sqrt) scene_cam scene_mats (scene_world : hittable ℝ Bool Nat)
        samples_per_pixel image_width image_height 0 0 0).1.color = ⟨√(1 / 2), √(7 / 10), 1⟩
    ∧ pixel_channels (pixel_task (scene_lib Real.sqrt) scene_cam scene_mats
        (scene_world : hittable ℝ Bool Nat) samples_per_pixel image_width image_height
        0 0 0).1.color = [255, 214, 181]
    ∧ pixel_line (pixel_task (scene_lib Real.sqrt) scene_cam scene_mats
        (scene_world : hittable ℝ Bool Nat) samples_per_pixel image_width image_height
        0 0 0).1.color = "255 214 181\n" := by
  have hcol : (pixel_task (scene_lib Real.sqrt) scene_cam scene_mats
      (scene_world : hittable ℝ Bool Nat) samples_per_pixel image_width image_height
      0 0 0).1.color = ⟨√(1 / 2), √(7 / 10), 1⟩ := by
    have hn : (100 : Int).toNat = 100 := rfl
    simp only [pixel_task, scene_samples_zenith Real.sqrt Real.sqrt_one, vec3.add, vec3.smul,
      vec3.div, samples_per_pixel]
    simp only [scene_lib, vec3.mk.injEq]
    refine ⟨?_, ?_, ?_⟩
    · congr 1
      norm_num [hn]
    · congr 1
      norm_num [hn]
    · rw [← Real.sqrt_one]
      congr 1
      norm_num [hn]
  have h5 : (0 : ℝ) ≤ √(1 / 2) := Real.sqrt_nonneg _
  have h7 : (0 : ℝ) ≤ √(7 / 10) := Real.sqrt_nonneg _
  have hb : static_cast_int (25599 / 100 * (1 : ℝ)) = 255 := by
    have hx : (0 : ℝ) ≤ 25599 / 100 * 1 := by norm_num
    simp only [static_cast_int, hx, if_true]
    rw [Int.floor_eq_iff]
    constructor <;> norm_num
  have hg : static_cast_int (25599 / 100 * √(7 / 10 : ℝ)) = 214 := by
    have hx : (0 : ℝ) ≤ 25599 / 100 * √(7 / 10) := by positivity
    simp only [static_cast_int, hx, if_true]
    rw [Int.floor_eq_iff]
    have lo : (21400 / 25599 : ℝ) ≤ √(7 / 10) := Real.le_sqrt_of_sq_le (by norm_num)
    have hi : √(7 / 10 : ℝ) < 21500 / 25599 := by
      rw [Real.sqrt_lt' (by norm_num)]
      norm_num
    constructor
    · push_cast
      linarith
    · push_cast
      linarith
  have hr : static_cast_int (25599 / 100 * √(1 / 2 : ℝ)) = 181 := by
    have hx : (0 : ℝ) ≤ 25599 / 100 * √(1 / 2) := by positivity
    simp only [static_cast_int, hx, if_true]
    rw [Int.floor_eq_iff]
    have lo : (18100 / 25599 : ℝ) ≤ √(1 / 2) := Real.le_sqrt_of_sq_le (by norm_num)
    have hi : √(1 / 2 : ℝ) < 18200 / 25599 := by
      rw [Real.sqrt_lt' (by norm_num)]
      norm_num
    constructor
    · push_cast
      linarith
    · push_cast
      linarith
  have hch : pixel_channels (⟨√(1 / 2), √(7 / 10), 1⟩ : vec3 ℝ) = [255, 214, 181] := by
    simp only [pixel_channels, hb, hg, hr]
  refine ⟨hcol, by rw [hcol, hch], ?_⟩
  rw [pixel_line, hcol, hch]
  decide

end ChannelOrder
